import Mathlib

/-!
Verification of the mod-installation staging pipeline of the `mxbmm` mod
manager (sources: `src/model.rs`, `src/fs_ops.rs`, `src/app.rs`).

The filesystem is modelled as an association list from paths (lists of
components) to nodes (directories or files with string content).  The
fallible filesystem primitives of the code (`fs::create_dir_all`,
`copy_dir_contents`, `write_metadata_file`, `fs::copy`, temp-dir creation,
zip extraction) are driven by an environment of success flags, so each
error-handling branch of the code is reachable in the model exactly where
the corresponding primitive can fail.
-/

namespace Mxbmm

/-- A filesystem path, as its list of components (the model of `PathBuf`). -/
abbrev Path := List String

/-- A filesystem node: a directory or a file with byte content. -/
inductive Node where
  | dir : Node
  | file (content : String) : Node
deriving DecidableEq, Repr

/-- The filesystem: an association list from absolute paths to nodes. -/
abbrev FS := List (Path × Node)

/-- `Path::display`, joining components (used in status messages). -/
def Path.display (p : Path) : String := String.intercalate "/" p

/-- ASCII lowercasing of a string, charwise.  Models Rust's
`str::to_lowercase` (which agrees with ASCII folding on ASCII input) and the
folding used by `eq_ignore_ascii_case`. -/
def to_lowercase (s : String) : String := String.mk (s.data.map Char.toLower)

/-- Rust's `str::eq_ignore_ascii_case`. -/
def eq_ignore_ascii_case (a b : String) : Bool :=
  a.data.map Char.toLower == b.data.map Char.toLower

/-- Rust's `str::ends_with` for string patterns. -/
def str_ends_with (s suffix : String) : Bool := suffix.data.isSuffixOf s.data

/-- A whitespace test modelling `char::is_whitespace` on the ASCII range. -/
def isRustWhitespace (c : Char) : Bool :=
  c == ' ' || c == '\t' || c == '\n' || c == '\r'

/-- Rust's `str::trim`. -/
def rust_trim (s : String) : String :=
  String.mk (((s.data.dropWhile isRustWhitespace).reverse.dropWhile isRustWhitespace).reverse)

/-- Rust's `str::replace('\n', "\\n")` used for the notes line of the
metadata sidecar. -/
def escape_newlines (s : String) : String :=
  String.mk (s.data.foldr (fun c acc => if c == '\n' then '\\' :: 'n' :: acc else c :: acc) [])

/-- Splits a file name at its last dot the way Rust's `Path::file_stem` /
`Path::extension` do: no dot, or a dot only at position 0, means no
extension; otherwise the stem is everything before the final dot and the
extension everything after it. -/
def stemExt (s : String) : String × Option String :=
  match s.data.reverse.findIdx? (fun c => c == '.') with
  | none => (s, none)
  | some k =>
    let i := s.data.length - 1 - k
    if i = 0 then (s, none)
    else (String.mk (s.data.take i), some (String.mk (s.data.drop (i + 1))))

/-- Rust's `Path::file_name` on our component lists. -/
def file_name (p : Path) : Option String := p.getLast?

/-- Rust's `Path::file_stem`. -/
def file_stem (p : Path) : Option String := (file_name p).map (fun s => (stemExt s).1)

/-- Rust's `Path::extension`. -/
def path_extension (p : Path) : Option String :=
  (file_name p).bind (fun s => (stemExt s).2)

/-! ### fs_ops.rs: extension predicates and name helpers -/

/-- `fs_ops::is_supported_archive`. -/
def is_supported_archive (p : Path) : Bool :=
  match path_extension p with
  | some e => eq_ignore_ascii_case e "zip"
  | none => false

/-- `fs_ops::is_pkz_file`. -/
def is_pkz_file (p : Path) : Bool :=
  match path_extension p with
  | some e => eq_ignore_ascii_case e "pkz"
  | none => false

/-- `fs_ops::is_pnt_file`. -/
def is_pnt_file (p : Path) : Bool :=
  match path_extension p with
  | some e => eq_ignore_ascii_case e "pnt"
  | none => false

/-- `fs_ops::with_extension_if_missing`. -/
def with_extension_if_missing (name extension : String) : String :=
  if str_ends_with (to_lowercase name) extension then name
  else name ++ extension

/-! ### The filesystem model's primitive operations -/

namespace FS

/-- Look up the node at a path. -/
def get (fs : FS) (p : Path) : Option Node :=
  (fs.find? (fun e => e.1 == p)).map (fun e => e.2)

/-- Whether a path exists (Rust `Path::exists`). -/
def exists_ (fs : FS) (p : Path) : Bool := (fs.get p).isSome

/-- Whether a path is a directory (Rust `Path::is_dir`). -/
def isDir (fs : FS) (p : Path) : Bool :=
  match fs.get p with
  | some Node.dir => true
  | _ => false

/-- Write a node at a path, replacing any previous node there. -/
def set (fs : FS) (p : Path) (n : Node) : FS :=
  (p, n) :: fs.filter (fun e => !(e.1 == p))

/-- Remove a path and everything below it (Rust `fs::remove_dir_all`). -/
def removeAll (fs : FS) (p : Path) : FS :=
  fs.filter (fun e => !(p.isPrefixOf e.1))

/-- The nonempty prefixes of a path, shortest first. -/
def neprefixes (p : Path) : List Path :=
  (List.range p.length).map (fun i => p.take (i + 1))

/-- Rust `fs::create_dir_all`: create the directory and all missing
ancestors; existing nodes are left untouched. -/
def mkdirAll (fs : FS) (p : Path) : FS :=
  (neprefixes p).foldl (fun a q => if (a.get q).isSome then a else a.set q Node.dir) fs

/-- Write a batch of nodes in order (later writes win). -/
def writeAll (fs : FS) (l : List (Path × Node)) : FS :=
  l.foldl (fun a e => a.set e.1 e.2) fs

/-- The entries strictly below `src`, with their paths made relative to
`src` (the model of a `WalkDir` traversal of `src`). -/
def subtreeRel (fs : FS) (src : Path) : List (Path × Node) :=
  fs.filterMap (fun e =>
    if src.isPrefixOf e.1 && !(e.1 == src) then some (e.1.drop src.length, e.2)
    else none)

/-- The names of the immediate children of `p` (Rust `fs::read_dir`). -/
def childrenNames (fs : FS) (p : Path) : List String :=
  fs.filterMap (fun e =>
    if e.1.length == p.length + 1 && p.isPrefixOf e.1 then (e.1.drop p.length).head?
    else none)

/-- Keys of the association list are pairwise distinct. -/
def NodupKeys (fs : FS) : Prop := (fs.map (fun e => e.1)).Nodup

/-- Well-formedness of a filesystem: distinct keys, and every nonempty
strict prefix of an entry's path is present as a directory (parent
closure, as on a real filesystem). -/
def WF (fs : FS) : Prop :=
  NodupKeys fs ∧
  ∀ e ∈ fs, ∀ q ∈ neprefixes e.1, q ≠ e.1 → fs.get q = some Node.dir

instance (fs : FS) : Decidable (NodupKeys fs) := by
  unfold NodupKeys; infer_instance

instance (fs : FS) : Decidable (WF fs) := by
  unfold WF; infer_instance

end FS

/-- `fs_ops::copy_dir_contents` (success case): recursively copy everything
below `src` to below `dst`, preserving relative structure. -/
def copy_dir_contents (fs : FS) (src dst : Path) : FS :=
  fs.writeAll ((fs.subtreeRel src).map (fun e => (dst ++ e.1, e.2)))

/-- `fs_ops::pick_source_root`: if the extraction dir has exactly one child
and it is a directory, that child; otherwise the extraction dir itself. -/
def pick_source_root (fs : FS) (extract_dir : Path) : Path :=
  match fs.childrenNames extract_dir with
  | [n] => if fs.isDir (extract_dir ++ [n]) then extract_dir ++ [n] else extract_dir
  | _ => extract_dir

/-- `fs_ops::guess_mod_name`: exactly one top-level child that is a
directory names the mod; otherwise the archive's file stem (with Rust's
`unwrap_or("mod")` fallback). -/
def guess_mod_name (fs : FS) (extract_dir : Path) (archive_path : Path) : String :=
  match fs.childrenNames extract_dir with
  | [n] =>
    if fs.isDir (extract_dir ++ [n]) then n
    else (file_stem archive_path).getD "mod"
  | _ => (file_stem archive_path).getD "mod"

/-! ### model.rs: the data model -/

/-- `model::InstallTarget`. -/
inductive InstallTarget where
  | Tracks | BikesMotocross | BikesSupercross | BikesPaints | Tyres
  | RiderModels | RiderPaints | RiderGloves | RiderHelmets | RiderHelmetPaints
  | RiderBoots | RiderBootPaints | RiderProtections
deriving DecidableEq, Repr

/-- `InstallTarget::relative_path`, as path components (the Rust source
holds the same path with components joined by a slash). -/
def InstallTarget.relative_path : InstallTarget → Path
  | .Tracks => ["tracks"]
  | .BikesMotocross => ["bikes", "motocross"]
  | .BikesSupercross => ["bikes", "supercross"]
  | .BikesPaints => ["bikes", "paints"]
  | .Tyres => ["tyres"]
  | .RiderModels => ["rider", "riders"]
  | .RiderPaints => ["rider", "riders", "paints"]
  | .RiderGloves => ["rider", "riders", "gloves"]
  | .RiderHelmets => ["rider", "helmets"]
  | .RiderHelmetPaints => ["rider", "helmets", "paints"]
  | .RiderBoots => ["rider", "boots"]
  | .RiderBootPaints => ["rider", "boots", "paints"]
  | .RiderProtections => ["rider", "protections"]

/-- `InstallTarget::excluded_subdirs`. -/
def InstallTarget.excluded_subdirs : InstallTarget → List String
  | .RiderModels => ["paints", "gloves"]
  | .RiderHelmets => ["paints"]
  | .RiderBoots => ["paints"]
  | _ => []

/-- `model::ModEntry`. -/
structure ModEntry where
  name : String
  path : Path
deriving DecidableEq, Repr

/-- `model::StatusKind`. -/
inductive StatusKind where
  | Info | Success | Error
deriving DecidableEq, Repr

/-- `model::StatusMessage`. -/
structure StatusMessage where
  kind : StatusKind
  text : String
deriving DecidableEq, Repr

/-- `model::PendingSource`. -/
inductive PendingSource where
  | Zip (archive_path temp_extract_dir : Path)
  | Pkz (pkz_path : Path)
  | Pnt (pnt_path : Path)
deriving DecidableEq, Repr

/-- `PendingSource::cleanup`, as its effect on the filesystem: delete the
temp extraction directory for an archive source, no-op otherwise. -/
def PendingSource.cleanup (s : PendingSource) (fs : FS) : FS :=
  match s with
  | .Zip _ temp_extract_dir => fs.removeAll temp_extract_dir
  | _ => fs

/-- `model::PendingInstall`. -/
structure PendingInstall where
  source : PendingSource
  install_target : InstallTarget
  custom_name : String
  notes : String
  version : String
deriving DecidableEq, Repr

/-! ### fs_ops.rs: directory scanning (`read_mod_entries`) -/

/-- One `fs::read_dir` result entry: a name and whether the child is a
directory. -/
structure DirEnt where
  name : String
  is_dir : Bool
deriving DecidableEq, Repr

/-- Insertion into a list sorted by a boolean `le`. -/
def insertLe {α : Type} (le : α → α → Bool) (x : α) : List α → List α
  | [] => [x]
  | y :: ys => if le x y then x :: y :: ys else y :: insertLe le x ys

/-- Sorting by a boolean `le`; models `Vec::sort_by_key` extensionally
(same elements, result sorted by the key). -/
def sortLe {α : Type} (le : α → α → Bool) (l : List α) : List α :=
  l.foldr (insertLe le) []

/-- Lexicographic comparison of character lists by code point; models the
`Ord` on Rust strings used by `sort_by_key` (UTF-8 byte order coincides
with code-point order). -/
def charListLe : List Char → List Char → Bool
  | [], _ => true
  | _ :: _, [] => false
  | a :: as, b :: bs => if a < b then true else if b < a then false else charListLe as bs

/-- The comparison used by `read_mod_entries`: case-insensitive name
order, via lowercasing (`e.name.to_lowercase()` as sort key). -/
def modEntryLe (a b : ModEntry) : Bool :=
  charListLe (to_lowercase a.name).data (to_lowercase b.name).data

/-- `fs_ops::read_mod_entries`.  The `listing` argument is the result of
`fs::read_dir` on `dir`: `none` when the directory cannot be read (then
the result is empty), otherwise the list of entries. -/
def read_mod_entries (dir : Path) (listing : Option (List DirEnt))
    (excluded_dir_names : List String) : List ModEntry :=
  match listing with
  | none => []
  | some items =>
    let entries := items.filterMap (fun item =>
      let name := item.name
      let path := dir ++ [name]
      if item.is_dir && excluded_dir_names.any (fun ex => eq_ignore_ascii_case ex name) then
        none
      else if !item.is_dir && !is_pkz_file path && !is_pnt_file path then
        none
      else
        some (ModEntry.mk name path))
    sortLe modEntryLe entries

/-! ### fs_ops.rs: zip extraction and metadata, as filesystem effects -/

/-- The writes performed by `fs_ops::extract_zip_archive` on success: for
each sanitized entry, directories are created with `create_dir_all`, files
get their parent directories created and their bytes written. -/
def extract_zip_writes (fs : FS) (dest : Path) (entries : List (Path × Node)) : FS :=
  entries.foldl (fun a e =>
    match e.2 with
    | Node.dir => a.mkdirAll (dest ++ e.1)
    | Node.file c => ((a.mkdirAll (dest ++ e.1).dropLast).set (dest ++ e.1) (Node.file c))) fs

/-- The content written by `fs_ops::write_metadata_file`. -/
def metadata_content (install_target : InstallTarget) (version notes : String)
    (archive_path : Path) : String :=
  "install_target=" ++ Path.display install_target.relative_path ++ "\n" ++
  "version=" ++ rust_trim version ++ "\n" ++
  "archive=" ++ Path.display archive_path ++ "\n" ++
  "notes=" ++ escape_newlines notes ++ "\n"

/-- `fs_ops::write_metadata_file` (success case): create `_mxbmm_meta.txt`
in the destination. -/
def write_metadata_file (fs : FS) (destination : Path) (install_target : InstallTarget)
    (version notes : String) (archive_path : Path) : FS :=
  fs.set (destination ++ ["_mxbmm_meta.txt"])
    (Node.file (metadata_content install_target version notes archive_path))

/-! ### app.rs: staging (`handle_dropped_files` and the `prepare_*` helpers) -/

/-- Environment for staging: whether temp-dir creation and extraction
succeed, the fresh temp directory path, the archive's (sanitized) entry
list, and the error text of a failing primitive. -/
structure StageEnv where
  tempDirOk : Bool
  tempDir : Path
  extractOk : Bool
  zipEntries : List (Path × Node)
  errMsg : String
deriving DecidableEq, Repr

/-- `app::MxbmmApp::prepare_pending_install` (the archive case): create a
fresh temp dir, extract into it (removing it again if extraction fails),
then guess the default name. -/
def prepare_pending_install (fs : FS) (env : StageEnv) (archive_path : Path) :
    FS × Except String PendingInstall :=
  if !env.tempDirOk then (fs, Except.error env.errMsg)
  else
    let fs1 := fs.mkdirAll env.tempDir
    if !env.extractOk then (fs1.removeAll env.tempDir, Except.error env.errMsg)
    else
      let fs2 := extract_zip_writes fs1 env.tempDir env.zipEntries
      let default_name := guess_mod_name fs2 env.tempDir archive_path
      (fs2, Except.ok
        { source := PendingSource.Zip archive_path env.tempDir
          install_target := InstallTarget.Tracks
          custom_name := default_name
          notes := ""
          version := "" })

/-- `app::MxbmmApp::prepare_pending_pkz_install`. -/
def prepare_pending_pkz_install (fs : FS) (pkz_path : Path) :
    Except String PendingInstall :=
  if !(fs.exists_ pkz_path) then Except.error "File does not exist."
  else
    Except.ok
      { source := PendingSource.Pkz pkz_path
        install_target := InstallTarget.Tracks
        custom_name := (file_stem pkz_path).getD "track"
        notes := ""
        version := "" }

/-- `app::MxbmmApp::prepare_pending_pnt_install`. -/
def prepare_pending_pnt_install (fs : FS) (pnt_path : Path) :
    Except String PendingInstall :=
  if !(fs.exists_ pnt_path) then Except.error "File does not exist."
  else
    Except.ok
      { source := PendingSource.Pnt pnt_path
        install_target := InstallTarget.RiderPaints
        custom_name := (file_stem pnt_path).getD "rider"
        notes := ""
        version := "" }

/-- The classification chain of `app::MxbmmApp::handle_dropped_files` for a
single dropped path (after the caller-level single-pending and
exactly-one-file guards): returns the updated filesystem, the pending
install slot, and the status message set. -/
def handle_dropped_file (fs : FS) (env : StageEnv) (file_path : Path) :
    FS × Option PendingInstall × StatusMessage :=
  if is_pkz_file file_path then
    match prepare_pending_pkz_install fs file_path with
    | Except.ok pending =>
      (fs, some pending,
        ⟨StatusKind.Info,
          ".pkz file loaded: " ++ Path.display file_path ++ ". Select mod type and install."⟩)
    | Except.error err =>
      (fs, none,
        ⟨StatusKind.Error,
          "Failed to prepare .pkz file " ++ Path.display file_path ++ ": " ++ err⟩)
  else if is_pnt_file file_path then
    match prepare_pending_pnt_install fs file_path with
    | Except.ok pending =>
      (fs, some pending,
        ⟨StatusKind.Info,
          ".pnt file loaded: " ++ Path.display file_path ++
            ". Default target is Rider Paints; change it if needed."⟩)
    | Except.error err =>
      (fs, none,
        ⟨StatusKind.Error,
          "Failed to prepare .pnt file " ++ Path.display file_path ++ ": " ++ err⟩)
  else if !(is_supported_archive file_path) then
    (fs, none, ⟨StatusKind.Error, "Unsupported file type. Supported: .zip, .pkz, and .pnt."⟩)
  else
    match prepare_pending_install fs env file_path with
    | (fs1, Except.ok pending) =>
      (fs1, some pending,
        ⟨StatusKind.Info,
          "Archive extracted: " ++ Path.display file_path ++ ". Fill out mod details and install."⟩)
    | (fs1, Except.error err) =>
      (fs1, none,
        ⟨StatusKind.Error,
          "Failed to extract archive " ++ Path.display file_path ++ ": " ++ err⟩)

/-! ### app.rs: the commit engine (`install_pending`) -/

/-- Environment for a commit: success flags for each fallible filesystem
primitive, the partial writes (relative to the destination) a failing
recursive copy leaves behind, and the error text of a failing primitive. -/
structure CommitEnv where
  createBaseOk : Bool
  createDestOk : Bool
  copyOk : Bool
  partialCopy : List (Path × Node)
  metaOk : Bool
  copyFileOk : Bool
  errMsg : String
deriving DecidableEq, Repr

/-- The result of `app::MxbmmApp::install_pending`: the filesystem, the
pending-install slot (restored on failure, emptied on success), and the
status message set. -/
structure CommitResult where
  fs : FS
  pending : Option PendingInstall
  status : StatusMessage
deriving DecidableEq, Repr

/-- `app::MxbmmApp::install_pending`, for a taken `pending` slot.  Mirrors
the Rust control flow: empty-name gate; `create_dir_all` on the base
category directory; then per source kind the existence check, the copy
(with rollback of the destination for the archive case), the best-effort
metadata write, and `PendingSource::cleanup` on every path that does not
return early. -/
def install_pending (root : Path) (pending : PendingInstall) (fs : FS)
    (env : CommitEnv) : CommitResult :=
  let install_name := rust_trim pending.custom_name
  if install_name == "" then
    ⟨fs, some pending, ⟨StatusKind.Error, "Install name cannot be empty."⟩⟩
  else
    let base_destination := root ++ pending.install_target.relative_path
    if !env.createBaseOk then
      ⟨fs, some pending,
        ⟨StatusKind.Error,
          "Failed to create destination directory " ++ Path.display base_destination ++
            ": " ++ env.errMsg⟩⟩
    else
      let fs1 := fs.mkdirAll base_destination
      match pending.source with
      | PendingSource.Zip archive_path temp_extract_dir =>
        let destination := base_destination ++ [install_name]
        if fs1.exists_ destination then
          ⟨fs1, some pending,
            ⟨StatusKind.Error,
              "Destination already exists: " ++ Path.display destination ++
                ". Choose another install name."⟩⟩
        else if !env.createDestOk then
          ⟨fs1, some pending,
            ⟨StatusKind.Error,
              "Failed to create install folder " ++ Path.display destination ++
                ": " ++ env.errMsg⟩⟩
        else
          let fs2 := fs1.mkdirAll destination
          let source_root := pick_source_root fs2 temp_extract_dir
          if !env.copyOk then
            let fs3 := fs2.writeAll (env.partialCopy.map (fun e => (destination ++ e.1, e.2)))
            ⟨(fs3.removeAll destination), some pending,
              ⟨StatusKind.Error, "Install failed while copying files: " ++ env.errMsg⟩⟩
          else
            let fs3 := copy_dir_contents fs2 source_root destination
            if !env.metaOk then
              ⟨pending.source.cleanup fs3, none,
                ⟨StatusKind.Info,
                  "Installed, but failed to write metadata file in " ++
                    Path.display destination ++ ": " ++ env.errMsg⟩⟩
            else
              let fs4 := write_metadata_file fs3 destination pending.install_target
                pending.version pending.notes archive_path
              ⟨pending.source.cleanup fs4, none,
                ⟨StatusKind.Success, "Installed mod to " ++ Path.display destination⟩⟩
      | PendingSource.Pkz pkz_path =>
        let file_name := with_extension_if_missing install_name ".pkz"
        let destination := base_destination ++ [file_name]
        if fs1.exists_ destination then
          ⟨fs1, some pending,
            ⟨StatusKind.Error,
              "Destination already exists: " ++ Path.display destination ++ "."⟩⟩
        else if !env.copyFileOk then
          ⟨fs1, some pending,
            ⟨StatusKind.Error,
              "Failed to install .pkz file to " ++ Path.display destination ++
                ": " ++ env.errMsg⟩⟩
        else
          let copied := (fs1.get pkz_path).getD (Node.file "")
          ⟨pending.source.cleanup (fs1.set destination copied), none,
            ⟨StatusKind.Success, "Installed mod file to " ++ Path.display destination⟩⟩
      | PendingSource.Pnt pnt_path =>
        let file_name := with_extension_if_missing install_name ".pnt"
        let destination := base_destination ++ [file_name]
        if fs1.exists_ destination then
          ⟨fs1, some pending,
            ⟨StatusKind.Error,
              "Destination already exists: " ++ Path.display destination ++ "."⟩⟩
        else if !env.copyFileOk then
          ⟨fs1, some pending,
            ⟨StatusKind.Error,
              "Failed to install .pnt file to " ++ Path.display destination ++
                ": " ++ env.errMsg⟩⟩
        else
          let copied := (fs1.get pnt_path).getD (Node.file "")
          ⟨pending.source.cleanup (fs1.set destination copied), none,
            ⟨StatusKind.Success, "Installed mod file to " ++ Path.display destination⟩⟩

/-! ### Lemmas about the filesystem model -/

namespace FS

theorem get_cons (e : Path × Node) (t : FS) (q : Path) :
    FS.get (e :: t) q = if e.1 = q then some e.2 else FS.get t q := by
  by_cases h : e.1 = q
  · unfold get
    rw [List.find?_cons_of_pos]
    · simp [h]
    · simp [h]
  · unfold get
    rw [List.find?_cons_of_neg]
    · simp [h]
    · simp [h]

theorem find?_filter_ne (fs : FS) (p q : Path) (h : q ≠ p) :
    (fs.filter (fun e => !(e.1 == p))).find? (fun e => e.1 == q)
      = fs.find? (fun e => e.1 == q) := by
  induction fs with
  | nil => rfl
  | cons e t ih =>
    by_cases hep : e.1 = p
    · have h1 : List.filter (fun e => !(e.1 == p)) (e :: t)
          = List.filter (fun e => !(e.1 == p)) t := by
        simp [List.filter_cons, hep]
      have hq : ¬(e.1 = q) := by rw [hep]; exact fun hh => h hh.symm
      have h2 : List.find? (fun e => e.1 == q) (e :: t)
          = List.find? (fun e => e.1 == q) t := by
        rw [List.find?_cons_of_neg]
        simp [hq]
      rw [h1, h2, ih]
    · have h1 : List.filter (fun e => !(e.1 == p)) (e :: t)
          = e :: List.filter (fun e => !(e.1 == p)) t := by
        simp [List.filter_cons, hep]
      by_cases heq : e.1 = q
      · rw [h1, List.find?_cons_of_pos, List.find?_cons_of_pos]
        · simp [heq]
        · simp [heq]
      · rw [h1, List.find?_cons_of_neg, List.find?_cons_of_neg, ih]
        · simp [heq]
        · simp [heq]

theorem get_set (fs : FS) (p : Path) (n : Node) (q : Path) :
    (fs.set p n).get q = if q = p then some n else fs.get q := by
  by_cases h : q = p
  · subst h
    rw [set, get_cons]
    simp
  · rw [set, get_cons]
    have h2 : ¬((p : Path) = q) := fun hh => h hh.symm
    rw [if_neg h2, if_neg h]
    unfold get
    rw [find?_filter_ne fs p q h]

theorem get_removeAll (fs : FS) (p q : Path) :
    (fs.removeAll p).get q = if p <+: q then none else fs.get q := by
  induction fs with
  | nil =>
    show FS.get [] q = if p <+: q then none else FS.get [] q
    by_cases hpq : p <+: q <;> simp [hpq, get]
  | cons e t ih =>
    by_cases hpe : p <+: e.1
    · have hb : p.isPrefixOf e.1 = true := List.isPrefixOf_iff_prefix.mpr hpe
      have h1 : removeAll (e :: t) p = removeAll t p := by
        unfold removeAll
        simp [List.filter_cons, hb]
      rw [h1, ih]
      by_cases hpq : p <+: q
      · simp [hpq]
      · have hq : ¬(e.1 = q) := fun hh => hpq (hh ▸ hpe)
        simp [hpq, get_cons, hq]
    · have hb : p.isPrefixOf e.1 = false := by
        cases hh : p.isPrefixOf e.1
        · rfl
        · exact absurd ( List.isPrefixOf_iff_prefix.mp hh) hpe
      have h1 : removeAll (e :: t) p = e :: removeAll t p := by
        unfold removeAll
        simp [List.filter_cons, hb]
      rw [h1, get_cons]
      by_cases hq : e.1 = q
      · have hpq : ¬(p <+: q) := fun hc => hpe (hq ▸ hc)
        simp [hq, hpq, get_cons]
      · rw [if_neg hq, ih, get_cons, if_neg hq]

theorem get_writeAll_of_not_mem (l : List (Path × Node)) (fs : FS) (q : Path)
    (h : ∀ e ∈ l, e.1 ≠ q) : (fs.writeAll l).get q = fs.get q := by
  induction l generalizing fs with
  | nil => rfl
  | cons e t ih =>
    have step : (writeAll fs (e :: t)) = writeAll (fs.set e.1 e.2) t := rfl
    rw [step, ih _ (fun x hx => h x (List.mem_cons_of_mem _ hx)), get_set]
    have : q ≠ e.1 := fun hh => (h e (List.mem_cons_self _ _)) hh.symm
    simp [this]

theorem get_writeAll_mem (l : List (Path × Node)) (fs : FS) (k : Path) (v : Node)
    (hnodup : (l.map (fun e => e.1)).Nodup) (hmem : (k, v) ∈ l) :
    (fs.writeAll l).get k = some v := by
  induction l generalizing fs with
  | nil => cases hmem
  | cons e t ih =>
    have step : (writeAll fs (e :: t)) = writeAll (fs.set e.1 e.2) t := rfl
    rcases List.mem_cons.mp hmem with he | ht
    · subst he
      have hk : ∀ x ∈ t, x.1 ≠ k := by
        intro x hx hxk
        have : k ∈ t.map (fun e => e.1) := hxk ▸ List.mem_map_of_mem _ hx
        exact (List.nodup_cons.mp hnodup).1 this
      rw [step, get_writeAll_of_not_mem t _ k hk, get_set]
      simp
    · rw [step]
      exact ih (fs.set e.1 e.2) (List.nodup_cons.mp hnodup).2 ht

theorem mem_neprefixes (p q : Path) :
    q ∈ neprefixes p ↔ ∃ i, i < p.length ∧ q = p.take (i + 1) := by
  simp [neprefixes]
  constructor
  · rintro ⟨i, hi, rfl⟩; exact ⟨i, hi, rfl⟩
  · rintro ⟨i, hi, rfl⟩; exact ⟨i, hi, rfl⟩

theorem isPrefix_of_mem_neprefixes (p q : Path) (h : q ∈ neprefixes p) : q <+: p := by
  rcases (mem_neprefixes p q).mp h with ⟨i, _, rfl⟩
  exact List.take_prefix _ _

theorem get_foldl_mkdir_of_not_mem (ps : List Path) (fs : FS) (q : Path)
    (h : ∀ r ∈ ps, r ≠ q) :
    (ps.foldl (fun a r => if (a.get r).isSome then a else a.set r Node.dir) fs).get q
      = fs.get q := by
  induction ps generalizing fs with
  | nil => rfl
  | cons r t ih =>
    have step : ((r :: t).foldl (fun a r => if (a.get r).isSome then a else a.set r Node.dir) fs)
        = t.foldl (fun a r => if (a.get r).isSome then a else a.set r Node.dir)
            (if (fs.get r).isSome then fs else fs.set r Node.dir) := rfl
    rw [step, ih _ (fun x hx => h x (List.mem_cons_of_mem _ hx))]
    by_cases hs : (fs.get r).isSome
    · simp [hs]
    · have : q ≠ r := fun hh => (h r (List.mem_cons_self _ _)) hh.symm
      simp [hs, get_set, this]

theorem get_mkdirAll_outside (fs : FS) (p q : Path) (h : ¬ q <+: p) :
    (fs.mkdirAll p).get q = fs.get q := by
  apply get_foldl_mkdir_of_not_mem
  intro r hr hrq
  exact h (hrq ▸ isPrefix_of_mem_neprefixes p r hr)

theorem foldl_mkdir_eq_self (ps : List Path) (fs : FS)
    (h : ∀ r ∈ ps, (fs.get r).isSome) :
    ps.foldl (fun a r => if (a.get r).isSome then a else a.set r Node.dir) fs = fs := by
  induction ps with
  | nil => rfl
  | cons r t ih =>
    have hr : (fs.get r).isSome := h r (List.mem_cons_self _ _)
    have step : ((r :: t).foldl (fun a r => if (a.get r).isSome then a else a.set r Node.dir) fs)
        = t.foldl (fun a r => if (a.get r).isSome then a else a.set r Node.dir)
            (if (fs.get r).isSome then fs else fs.set r Node.dir) := rfl
    rw [step, if_pos hr]
    exact ih (fun x hx => h x (List.mem_cons_of_mem _ hx))

theorem mkdirAll_eq_self (fs : FS) (p : Path)
    (h : ∀ q ∈ neprefixes p, (fs.get q).isSome) : fs.mkdirAll p = fs :=
  foldl_mkdir_eq_self _ _ h

theorem mem_of_get_eq_some (fs : FS) (p : Path) (n : Node) (h : fs.get p = some n) :
    (p, n) ∈ fs := by
  unfold get at h
  rcases Option.map_eq_some'.mp h with ⟨e, he, hn⟩
  have hp : e.1 = p := by
    have := List.find?_some he
    simpa using this
  have hm := List.mem_of_find?_eq_some he
  have : e = (p, n) := by
    cases e; simp_all
  exact this ▸ hm

theorem nodupKeys_filter (fs : FS) (f : Path × Node → Bool) (h : NodupKeys fs) :
    NodupKeys (fs.filter f) :=
  List.Nodup.sublist (List.Sublist.map _ (List.filter_sublist fs)) h

theorem nodupKeys_set (fs : FS) (p : Path) (n : Node) (h : NodupKeys fs) :
    NodupKeys (fs.set p n) := by
  unfold NodupKeys set
  rw [List.map_cons]
  refine List.nodup_cons.mpr ⟨?_, nodupKeys_filter fs _ h⟩
  intro hc
  rcases List.mem_map.mp hc with ⟨e, he, hep⟩
  have := List.of_mem_filter he
  simp [hep] at this

theorem nodupKeys_mkdirAll (fs : FS) (p : Path) (h : NodupKeys fs) :
    NodupKeys (fs.mkdirAll p) := by
  unfold mkdirAll
  generalize neprefixes p = ps
  induction ps generalizing fs with
  | nil => exact h
  | cons r t ih =>
    have step : ((r :: t).foldl (fun a r => if (a.get r).isSome then a else a.set r Node.dir) fs)
        = t.foldl (fun a r => if (a.get r).isSome then a else a.set r Node.dir)
            (if (fs.get r).isSome then fs else fs.set r Node.dir) := rfl
    rw [step]
    by_cases hs : (fs.get r).isSome
    · rw [if_pos hs]; exact ih fs h
    · rw [if_neg hs]; exact ih _ (nodupKeys_set fs r Node.dir h)

theorem eq_append_drop_of_pre (src p : Path) (h : src <+: p) :
    src ++ p.drop src.length = p := by
  rcases h with ⟨t, rfl⟩
  rw [List.drop_left]

theorem nodup_keys_subtreeRel (fs : FS) (src : Path) (h : NodupKeys fs) :
    ((fs.subtreeRel src).map (fun e => e.1)).Nodup := by
  unfold subtreeRel
  induction fs with
  | nil => simp
  | cons e t ih =>
    have h' : (List.map (fun x : Path × Node => x.1) (e :: t)).Nodup := h
    rw [List.map_cons] at h'
    have h2 := List.nodup_cons.mp h'
    by_cases hc : (src.isPrefixOf e.1 && !(e.1 == src)) = true
    · rw [List.filterMap_cons]
      simp only [hc, if_pos]
      rw [List.map_cons]
      refine List.nodup_cons.mpr ⟨?_, ih (show NodupKeys t from h2.2)⟩
      intro hm
      rcases List.mem_map.mp hm with ⟨x, hx, hxk⟩
      rcases List.mem_filterMap.mp hx with ⟨e', he', hfe⟩
      by_cases hc' : (src.isPrefixOf e'.1 && !(e'.1 == src)) = true
      · simp only [hc', if_pos] at hfe
        have hx2 : (e'.1.drop src.length, e'.2) = x := Option.some.inj hfe
        have hk : e'.1.drop src.length = e.1.drop src.length := by
          rw [← hx2] at hxk
          simpa using hxk
        have hpre : src <+: e.1 := List.isPrefixOf_iff_prefix.mp (by
          revert hc; cases hsp : src.isPrefixOf e.1 <;> simp)
        have hpre' : src <+: e'.1 := List.isPrefixOf_iff_prefix.mp (by
          revert hc'; cases hsp : src.isPrefixOf e'.1 <;> simp)
        have : e'.1 = e.1 := by
          rw [← eq_append_drop_of_pre src e'.1 hpre', ← eq_append_drop_of_pre src e.1 hpre, hk]
        exact h2.1 (this ▸ List.mem_map_of_mem _ he')
      · simp [hc'] at hfe
    · rw [List.filterMap_cons]
      simp only [hc, if_neg]
      simpa using ih (show NodupKeys t from h2.2)

theorem mem_subtreeRel (fs : FS) (src : Path) (rel : Path) (n : Node) :
    (rel, n) ∈ fs.subtreeRel src ↔
      (src ++ rel, n) ∈ fs ∧ rel ≠ [] := by
  unfold subtreeRel
  rw [List.mem_filterMap]
  constructor
  · rintro ⟨e, he, hfe⟩
    by_cases hc : (src.isPrefixOf e.1 && !(e.1 == src)) = true
    · simp only [hc, if_pos, Option.some.injEq] at hfe
      have hpre : src <+: e.1 := List.isPrefixOf_iff_prefix.mp (by
        revert hc; cases hsp : src.isPrefixOf e.1 <;> simp)
      have hne : ¬(e.1 = src) := by
        revert hc; cases hsp : (e.1 == src) <;> simp_all
      have h1 : e.1.drop src.length = rel := congrArg Prod.fst hfe
      have h2 : e.2 = n := congrArg Prod.snd hfe
      have heq : src ++ rel = e.1 := by
        rw [← h1]; exact eq_append_drop_of_pre src e.1 hpre
      constructor
      · rw [heq]; exact h2 ▸ (by cases e; simpa using he)
      · intro hrel
        exact hne (by rw [← heq, hrel, List.append_nil])
    · simp [hc] at hfe
  · rintro ⟨hmem, hrel⟩
    refine ⟨(src ++ rel, n), hmem, ?_⟩
    have hpre : src <+: src ++ rel := List.prefix_append src rel
    have hb : src.isPrefixOf (src ++ rel) = true := List.isPrefixOf_iff_prefix.mpr hpre
    have hne : ((src ++ rel : Path) == src) = false := by
      apply beq_eq_false_iff_ne.mpr
      intro hh
      exact hrel (by simpa using congrArg List.length hh)
    simp [hb, hne, List.drop_left]

end FS

/-! ### Lemmas about sorting, strings and the extension predicates -/

theorem perm_insertLe {α : Type} (le : α → α → Bool) (x : α) (l : List α) :
    List.Perm (insertLe le x l) (x :: l) := by
  induction l with
  | nil => exact List.Perm.refl _
  | cons y ys ih =>
    by_cases h : le x y = true
    · simp [insertLe, h]
    · have h' : le x y = false := by cases hh : le x y <;> simp_all
      simp only [insertLe, h', Bool.false_eq_true, if_false]
      exact (List.Perm.cons y ih).trans (List.Perm.swap x y ys)

theorem perm_sortLe {α : Type} (le : α → α → Bool) (l : List α) :
    List.Perm (sortLe le l) l := by
  induction l with
  | nil => exact List.Perm.refl _
  | cons x xs ih => exact (perm_insertLe le x (sortLe le xs)).trans (List.Perm.cons x ih)

theorem mem_sortLe {α : Type} (le : α → α → Bool) (l : List α) (a : α) :
    a ∈ sortLe le l ↔ a ∈ l :=
  (perm_sortLe le l).mem_iff

theorem pairwise_insertLe {α : Type} (le : α → α → Bool)
    (htot : ∀ a b, le a b = true ∨ le b a = true)
    (htrans : ∀ a b c, le a b = true → le b c = true → le a c = true)
    (x : α) (l : List α) (h : l.Pairwise (fun a b => le a b = true)) :
    (insertLe le x l).Pairwise (fun a b => le a b = true) := by
  induction l with
  | nil => simp [insertLe]
  | cons y ys ih =>
    rcases List.pairwise_cons.mp h with ⟨hy, hys⟩
    by_cases hxy : le x y = true
    · simp only [insertLe, hxy, if_pos]
      refine List.pairwise_cons.mpr ⟨?_, h⟩
      intro z hz
      rcases List.mem_cons.mp hz with rfl | hz'
      · exact hxy
      · exact htrans x y z hxy (hy z hz')
    · have hxy' : le x y = false := by cases hh : le x y <;> simp_all
      simp only [insertLe, hxy', Bool.false_eq_true, if_neg, if_false]
      refine List.pairwise_cons.mpr ⟨?_, ih hys⟩
      intro z hz
      have hz2 := (perm_insertLe le x ys).mem_iff.mp hz
      rcases List.mem_cons.mp hz2 with hzx | hz'
      · rcases htot x y with h1 | h1
        · exact absurd h1 (by simp [hxy'])
        · rw [hzx]; exact h1
      · exact hy z hz'

theorem pairwise_sortLe {α : Type} (le : α → α → Bool)
    (htot : ∀ a b, le a b = true ∨ le b a = true)
    (htrans : ∀ a b c, le a b = true → le b c = true → le a c = true)
    (l : List α) :
    (sortLe le l).Pairwise (fun a b => le a b = true) := by
  induction l with
  | nil => simp [sortLe]
  | cons x xs ih => exact pairwise_insertLe le htot htrans x _ ih

theorem charListLe_total : ∀ a b : List Char,
    charListLe a b = true ∨ charListLe b a = true
  | [], _ => Or.inl rfl
  | _ :: _, [] => Or.inr rfl
  | x :: xs, y :: ys => by
    rcases lt_trichotomy x y with h | h | h
    · left; simp [charListLe, h]
    · subst h
      rcases charListLe_total xs ys with ih | ih
      · left; simp [charListLe, lt_irrefl, ih]
      · right; simp [charListLe, lt_irrefl, ih]
    · right; simp [charListLe, h]

theorem charListLe_trans : ∀ a b c : List Char,
    charListLe a b = true → charListLe b c = true → charListLe a c = true
  | [], _, _, _, _ => rfl
  | _ :: _, [], _, hab, _ => by simp [charListLe] at hab
  | _ :: _, _ :: _, [], _, hbc => by simp [charListLe] at hbc
  | x :: xs, y :: ys, z :: zs, hab, hbc => by
    rcases lt_trichotomy x y with hxy | hxy | hxy
    · rcases lt_trichotomy y z with hyz | hyz | hyz
      · simp [charListLe, lt_trans hxy hyz]
      · subst hyz; simp [charListLe, hxy]
      · simp [charListLe, asymm hyz, hyz] at hbc
    · subst hxy
      rcases lt_trichotomy x z with hyz | hyz | hyz
      · simp [charListLe, hyz]
      · subst hyz
        have h1 : charListLe xs ys = true := by
          simpa [charListLe, lt_irrefl] using hab
        have h2 : charListLe ys zs = true := by
          simpa [charListLe, lt_irrefl] using hbc
        simpa [charListLe, lt_irrefl] using charListLe_trans xs ys zs h1 h2
      · simp [charListLe, asymm hyz, hyz] at hbc
    · simp [charListLe, asymm hxy, hxy] at hab

theorem modEntryLe_total (a b : ModEntry) :
    modEntryLe a b = true ∨ modEntryLe b a = true :=
  charListLe_total _ _

theorem modEntryLe_trans (a b c : ModEntry)
    (h1 : modEntryLe a b = true) (h2 : modEntryLe b c = true) :
    modEntryLe a c = true :=
  charListLe_trans _ _ _ h1 h2

theorem data_append (a b : String) : (a ++ b).data = a.data ++ b.data := by
  cases a; cases b; rfl

theorem to_lowercase_append (a b : String) :
    to_lowercase (a ++ b) = to_lowercase a ++ to_lowercase b := by
  unfold to_lowercase
  rw [data_append, List.map_append]
  cases a; cases b; rfl

theorem eqIC_unique (e a b : String)
    (h1 : eq_ignore_ascii_case e a = true) (h2 : eq_ignore_ascii_case e b = true) :
    a.data.map Char.toLower = b.data.map Char.toLower := by
  have ha := eq_of_beq h1
  have hb := eq_of_beq h2
  rw [← ha, ← hb]

theorem not_pkz_of_zip (p : Path) (h : is_supported_archive p = true) :
    is_pkz_file p = false := by
  cases hx : path_extension p with
  | none =>
    unfold is_pkz_file
    rw [hx]
  | some e =>
    have hz : eq_ignore_ascii_case e "zip" = true := by
      unfold is_supported_archive at h
      rw [hx] at h
      exact h
    unfold is_pkz_file
    rw [hx]
    cases hpk : eq_ignore_ascii_case e "pkz"
    · exact hpk
    · exact absurd (eqIC_unique e "zip" "pkz" hz hpk) (by decide)

theorem not_pnt_of_zip (p : Path) (h : is_supported_archive p = true) :
    is_pnt_file p = false := by
  cases hx : path_extension p with
  | none =>
    unfold is_pnt_file
    rw [hx]
  | some e =>
    have hz : eq_ignore_ascii_case e "zip" = true := by
      unfold is_supported_archive at h
      rw [hx] at h
      exact h
    unfold is_pnt_file
    rw [hx]
    cases hpk : eq_ignore_ascii_case e "pnt"
    · exact hpk
    · exact absurd (eqIC_unique e "zip" "pnt" hz hpk) (by decide)

theorem not_pkz_of_pnt (p : Path) (h : is_pnt_file p = true) :
    is_pkz_file p = false := by
  cases hx : path_extension p with
  | none =>
    unfold is_pkz_file
    rw [hx]
  | some e =>
    have hz : eq_ignore_ascii_case e "pnt" = true := by
      unfold is_pnt_file at h
      rw [hx] at h
      exact h
    unfold is_pkz_file
    rw [hx]
    cases hpk : eq_ignore_ascii_case e "pkz"
    · exact hpk
    · exact absurd (eqIC_unique e "pnt" "pkz" hz hpk) (by decide)

theorem ext_isSome_of_zip (p : Path) (h : is_supported_archive p = true) :
    (path_extension p).isSome = true := by
  cases hx : path_extension p with
  | none =>
    unfold is_supported_archive at h
    rw [hx] at h
    exact Bool.noConfusion h
  | some e => rfl

theorem ext_isSome_of_pkz (p : Path) (h : is_pkz_file p = true) :
    (path_extension p).isSome = true := by
  cases hx : path_extension p with
  | none =>
    unfold is_pkz_file at h
    rw [hx] at h
    exact Bool.noConfusion h
  | some e => rfl

theorem ext_isSome_of_pnt (p : Path) (h : is_pnt_file p = true) :
    (path_extension p).isSome = true := by
  cases hx : path_extension p with
  | none =>
    unfold is_pnt_file at h
    rw [hx] at h
    exact Bool.noConfusion h
  | some e => rfl

theorem nodup_keys_mapped_subtree (fs2 : FS) (src D : Path) (h : FS.NodupKeys fs2) :
    (((fs2.subtreeRel src).map (fun e => (D ++ e.1, e.2))).map (fun e => e.1)).Nodup := by
  rw [List.map_map]
  have hcomp : ((fun e : Path × Node => e.1) ∘ (fun e : Path × Node => (D ++ e.1, e.2)))
      = (fun e : Path × Node => D ++ e.1) := rfl
  rw [hcomp]
  have h2 : (fs2.subtreeRel src).map (fun e => D ++ e.1)
      = ((fs2.subtreeRel src).map (fun e => e.1)).map (fun r => D ++ r) := by
    rw [List.map_map]
    rfl
  rw [h2]
  exact List.Nodup.map (fun x y hxy => List.append_cancel_left hxy)
    (FS.nodup_keys_subtreeRel fs2 src h)

theorem take_append_left {α : Type} (l s : List α) (n : Nat) (h : n ≤ l.length) :
    (l ++ s).take n = l.take n := by
  rw [List.take_append_eq_append_take, Nat.sub_eq_zero_of_le h, List.take_zero, List.append_nil]

theorem exists_stem_of_ext_isSome (p : Path) (h : (path_extension p).isSome = true) :
    ∃ st, file_stem p = some st := by
  unfold path_extension at h
  unfold file_stem
  cases hx : file_name p with
  | none => rw [hx] at h; exact Bool.noConfusion h
  | some s => exact ⟨(stemExt s).1, rfl⟩

/-! ### The claims -/

/-- C3: committing a `PendingInstall` whose install name trims to the empty
string always fails with the empty-name error, performs no filesystem
operations, and leaves the `PendingInstall` unchanged and still pending. -/
theorem install_pending_empty_name (root : Path) (pending : PendingInstall)
    (fs : FS) (env : CommitEnv) (h : rust_trim pending.custom_name = "") :
    install_pending root pending fs env =
      ⟨fs, some pending, ⟨StatusKind.Error, "Install name cannot be empty."⟩⟩ := by
  unfold install_pending
  simp [h]

/-- Witness for C3 at a concrete whitespace-only name. -/
theorem install_pending_empty_name_witness :
    rust_trim "  " = "" ∧
    install_pending ["root"]
        ⟨PendingSource.Pkz ["cool.pkz"], InstallTarget.Tracks, "  ", "", ""⟩
        [] ⟨true, true, true, [], true, true, "e"⟩ =
      ⟨[], some ⟨PendingSource.Pkz ["cool.pkz"], InstallTarget.Tracks, "  ", "", ""⟩,
        ⟨StatusKind.Error, "Install name cannot be empty."⟩⟩ :=
  ⟨by decide, install_pending_empty_name ["root"] _ [] _ (by decide)⟩

/-- C2: an archive-sourced commit whose destination (base category
directory joined with the trimmed name) already exists fails with the
already-exists error and performs no filesystem mutation at all: the
result filesystem is exactly the input filesystem (on a well-formed
filesystem the initial `create_dir_all` of the base directory is a no-op,
because an existing destination implies all its ancestors exist). -/
theorem install_pending_zip_already_exists (root : Path) (pending : PendingInstall)
    (fs : FS) (env : CommitEnv) (a t : Path)
    (hsrc : pending.source = PendingSource.Zip a t)
    (hname : rust_trim pending.custom_name ≠ "")
    (hbase : env.createBaseOk = true)
    (hwf : FS.WF fs)
    (hex : fs.exists_ ((root ++ pending.install_target.relative_path) ++
      [rust_trim pending.custom_name]) = true) :
    install_pending root pending fs env =
      ⟨fs, some pending,
        ⟨StatusKind.Error,
          "Destination already exists: " ++
            Path.display ((root ++ pending.install_target.relative_path) ++
              [rust_trim pending.custom_name]) ++
            ". Choose another install name."⟩⟩ := by
  have hbeq : (rust_trim pending.custom_name == "") = false := beq_eq_false_iff_ne.mpr hname
  obtain ⟨n, hn⟩ := Option.isSome_iff_exists.mp hex
  have hmem := FS.mem_of_get_eq_some fs _ n hn
  have hmk : fs.mkdirAll (root ++ pending.install_target.relative_path) = fs := by
    apply FS.mkdirAll_eq_self
    intro q hq
    rcases (FS.mem_neprefixes _ q).mp hq with ⟨i, hi, rfl⟩
    have hile : i + 1 ≤ (root ++ pending.install_target.relative_path).length := hi
    have htake : (root ++ pending.install_target.relative_path).take (i + 1)
        = ((root ++ pending.install_target.relative_path) ++
            [rust_trim pending.custom_name]).take (i + 1) :=
      (take_append_left (root ++ pending.install_target.relative_path)
        [rust_trim pending.custom_name] (i + 1) hile).symm
    have hqmem : (root ++ pending.install_target.relative_path).take (i + 1)
        ∈ FS.neprefixes ((root ++ pending.install_target.relative_path) ++
            [rust_trim pending.custom_name]) := by
      apply (FS.mem_neprefixes _ _).mpr
      refine ⟨i, ?_, htake⟩
      rw [List.length_append]
      omega
    have hqne : (root ++ pending.install_target.relative_path).take (i + 1)
        ≠ (root ++ pending.install_target.relative_path) ++
            [rust_trim pending.custom_name] := by
      intro hcon
      have hlen := congrArg List.length hcon
      simp only [List.length_take, List.length_append, List.length_cons,
        List.length_nil] at hlen
      omega
    have hdir := hwf.2 _ hmem _ hqmem hqne
    simp [hdir]
  have hn' : fs.get (root ++ (pending.install_target.relative_path ++
      [rust_trim pending.custom_name])) = some n := by
    rw [← List.append_assoc]
    exact hn
  unfold install_pending
  simp [hbeq, hbase, hsrc, hmk, FS.exists_, hn']

/-- Witness for C2: a concrete well-formed filesystem in which the
destination `root/tracks/Mod` already exists. -/
theorem install_pending_zip_already_exists_witness :
    (FS.WF [( ["root"], Node.dir ), ( ["root", "tracks"], Node.dir ),
            ( ["root", "tracks", "Mod"], Node.dir )] ∧
     FS.exists_ [( ["root"], Node.dir ), ( ["root", "tracks"], Node.dir ),
            ( ["root", "tracks", "Mod"], Node.dir )]
        ((["root"] ++ InstallTarget.Tracks.relative_path) ++ [rust_trim "Mod"]) = true) ∧
    install_pending ["root"]
        ⟨PendingSource.Zip ["arch.zip"] ["tmp", "x"], InstallTarget.Tracks, "Mod", "", ""⟩
        [( ["root"], Node.dir ), ( ["root", "tracks"], Node.dir ),
            ( ["root", "tracks", "Mod"], Node.dir )]
        ⟨true, true, true, [], true, true, "e"⟩ =
      ⟨[( ["root"], Node.dir ), ( ["root", "tracks"], Node.dir ),
            ( ["root", "tracks", "Mod"], Node.dir )],
        some ⟨PendingSource.Zip ["arch.zip"] ["tmp", "x"], InstallTarget.Tracks, "Mod", "", ""⟩,
        ⟨StatusKind.Error,
          "Destination already exists: root/tracks/Mod. Choose another install name."⟩⟩ :=
  ⟨⟨by decide, by decide⟩,
    by
      have h := install_pending_zip_already_exists ["root"]
        ⟨PendingSource.Zip ["arch.zip"] ["tmp", "x"], InstallTarget.Tracks, "Mod", "", ""⟩
        [( ["root"], Node.dir ), ( ["root", "tracks"], Node.dir ),
            ( ["root", "tracks", "Mod"], Node.dir )]
        ⟨true, true, true, [], true, true, "e"⟩
        ["arch.zip"] ["tmp", "x"] rfl (by decide) rfl (by decide) (by decide)
      simpa using h⟩

/-- C1: when the recursive copy of an archive-sourced commit fails, the
partially-created destination tree is removed entirely (no path at or
below the destination exists afterwards), the copy failure is reported,
and the `PendingInstall` is returned still pending. -/
theorem install_pending_zip_copy_failure (root : Path) (pending : PendingInstall)
    (fs : FS) (env : CommitEnv) (a t : Path)
    (hsrc : pending.source = PendingSource.Zip a t)
    (hname : rust_trim pending.custom_name ≠ "")
    (hbase : env.createBaseOk = true)
    (hnew : fs.get ((root ++ pending.install_target.relative_path) ++
      [rust_trim pending.custom_name]) = none)
    (hdok : env.createDestOk = true)
    (hcopy : env.copyOk = false) :
    (install_pending root pending fs env).pending = some pending ∧
    (install_pending root pending fs env).status =
      ⟨StatusKind.Error, "Install failed while copying files: " ++ env.errMsg⟩ ∧
    ∀ q, ((root ++ pending.install_target.relative_path) ++
        [rust_trim pending.custom_name]) <+: q →
      (install_pending root pending fs env).fs.get q = none := by
  have hbeq : (rust_trim pending.custom_name == "") = false := beq_eq_false_iff_ne.mpr hname
  have hnp : ¬ ((root ++ pending.install_target.relative_path) ++
      [rust_trim pending.custom_name]) <+: (root ++ pending.install_target.relative_path) := by
    intro hc
    have hle := hc.length_le
    simp only [List.length_append, List.length_cons, List.length_nil] at hle
    omega
  have hget1 : (fs.mkdirAll (root ++ pending.install_target.relative_path)).get
      (root ++ (pending.install_target.relative_path ++
        [rust_trim pending.custom_name])) = none := by
    rw [← List.append_assoc]
    rw [FS.get_mkdirAll_outside _ _ _ hnp]
    exact hnew
  have hres : install_pending root pending fs env =
      ⟨FS.removeAll
          (FS.writeAll
            (FS.mkdirAll (fs.mkdirAll (root ++ pending.install_target.relative_path))
              ((root ++ pending.install_target.relative_path) ++
                [rust_trim pending.custom_name]))
            (env.partialCopy.map (fun e =>
              ((((root ++ pending.install_target.relative_path) ++
                [rust_trim pending.custom_name])) ++ e.1, e.2))))
          ((root ++ pending.install_target.relative_path) ++
            [rust_trim pending.custom_name]),
        some pending,
        ⟨StatusKind.Error, "Install failed while copying files: " ++ env.errMsg⟩⟩ := by
    unfold install_pending
    simp [hbeq, hbase, hsrc, hdok, hcopy, FS.exists_, hget1]
  refine ⟨by rw [hres], by rw [hres], ?_⟩
  intro q hq
  rw [hres]
  have hq' : ((root ++ pending.install_target.relative_path) ++
      [rust_trim pending.custom_name]) <+: q := hq
  simp only [FS.get_removeAll, hq', if_pos]

/-- Witness for C1 at a concrete failing copy: the destination
`r/tracks/m` does not survive. -/
theorem install_pending_zip_copy_failure_witness :
    (install_pending ["r"]
        ⟨PendingSource.Zip ["a.zip"] ["tmp"], InstallTarget.Tracks, "m", "", ""⟩
        [(["tmp"], Node.dir), (["tmp", "f.txt"], Node.file "x")]
        ⟨true, true, false, [(["f.txt"], Node.file "x")], true, true, "disk full"⟩).pending
      = some ⟨PendingSource.Zip ["a.zip"] ["tmp"], InstallTarget.Tracks, "m", "", ""⟩ ∧
    (install_pending ["r"]
        ⟨PendingSource.Zip ["a.zip"] ["tmp"], InstallTarget.Tracks, "m", "", ""⟩
        [(["tmp"], Node.dir), (["tmp", "f.txt"], Node.file "x")]
        ⟨true, true, false, [(["f.txt"], Node.file "x")], true, true, "disk full"⟩).status
      = ⟨StatusKind.Error, "Install failed while copying files: disk full"⟩ ∧
    (install_pending ["r"]
        ⟨PendingSource.Zip ["a.zip"] ["tmp"], InstallTarget.Tracks, "m", "", ""⟩
        [(["tmp"], Node.dir), (["tmp", "f.txt"], Node.file "x")]
        ⟨true, true, false, [(["f.txt"], Node.file "x")], true, true, "disk full"⟩).fs.get
        ["r", "tracks", "m"] = none := by
  have h := install_pending_zip_copy_failure ["r"]
    ⟨PendingSource.Zip ["a.zip"] ["tmp"], InstallTarget.Tracks, "m", "", ""⟩
    [(["tmp"], Node.dir), (["tmp", "f.txt"], Node.file "x")]
    ⟨true, true, false, [(["f.txt"], Node.file "x")], true, true, "disk full"⟩
    ["a.zip"] ["tmp"] rfl (by decide) rfl (by decide) rfl rfl
  exact ⟨h.1, h.2.1, h.2.2 ["r", "tracks", "m"] (by decide)⟩

/-- C9 counterexample: a concrete archive-sourced commit attempt that fails
(while copying) reports an error, returns the `PendingInstall` still
pending, and leaves the temp extraction directory `tmp` in place — the
temp directory is NOT deleted on commit failure. -/
theorem install_pending_temp_retained_cex :
    (install_pending ["r"]
        ⟨PendingSource.Zip ["a.zip"] ["tmp"], InstallTarget.Tracks, "m", "", ""⟩
        [(["tmp"], Node.dir)] ⟨true, true, false, [], true, true, "boom"⟩).status.kind
      = StatusKind.Error ∧
    (install_pending ["r"]
        ⟨PendingSource.Zip ["a.zip"] ["tmp"], InstallTarget.Tracks, "m", "", ""⟩
        [(["tmp"], Node.dir)] ⟨true, true, false, [], true, true, "boom"⟩).pending
      = some ⟨PendingSource.Zip ["a.zip"] ["tmp"], InstallTarget.Tracks, "m", "", ""⟩ ∧
    (install_pending ["r"]
        ⟨PendingSource.Zip ["a.zip"] ["tmp"], InstallTarget.Tracks, "m", "", ""⟩
        [(["tmp"], Node.dir)] ⟨true, true, false, [], true, true, "boom"⟩).fs.get ["tmp"]
      = some Node.dir := by
  decide

/-- C9 (amended): when an archive-sourced commit attempt fails (here: the
recursive copy fails), the temp extraction directory is NOT deleted — the
whole temp subtree is untouched and the `PendingInstall` (which still owns
it) is returned still pending; the directory is deleted only on commit
success or cancel. -/
theorem install_pending_zip_copy_failure_keeps_temp (root : Path)
    (pending : PendingInstall) (fs : FS) (env : CommitEnv) (a t : Path)
    (hsrc : pending.source = PendingSource.Zip a t)
    (hname : rust_trim pending.custom_name ≠ "")
    (hbase : env.createBaseOk = true)
    (hnew : fs.get ((root ++ pending.install_target.relative_path) ++
      [rust_trim pending.custom_name]) = none)
    (hdok : env.createDestOk = true)
    (hcopy : env.copyOk = false)
    (hd1 : ¬ t <+: ((root ++ pending.install_target.relative_path) ++
      [rust_trim pending.custom_name]))
    (hd2 : ¬ ((root ++ pending.install_target.relative_path) ++
      [rust_trim pending.custom_name]) <+: t) :
    (install_pending root pending fs env).pending = some pending ∧
    ∀ q, t <+: q → (install_pending root pending fs env).fs.get q = fs.get q := by
  have hbeq : (rust_trim pending.custom_name == "") = false := beq_eq_false_iff_ne.mpr hname
  have hnp : ¬ ((root ++ pending.install_target.relative_path) ++
      [rust_trim pending.custom_name]) <+: (root ++ pending.install_target.relative_path) := by
    intro hc
    have hle := hc.length_le
    simp only [List.length_append, List.length_cons, List.length_nil] at hle
    omega
  have hget1 : (fs.mkdirAll (root ++ pending.install_target.relative_path)).get
      (root ++ (pending.install_target.relative_path ++
        [rust_trim pending.custom_name])) = none := by
    rw [← List.append_assoc]
    rw [FS.get_mkdirAll_outside _ _ _ hnp]
    exact hnew
  have hres : install_pending root pending fs env =
      ⟨FS.removeAll
          (FS.writeAll
            (FS.mkdirAll (fs.mkdirAll (root ++ pending.install_target.relative_path))
              ((root ++ pending.install_target.relative_path) ++
                [rust_trim pending.custom_name]))
            (env.partialCopy.map (fun e =>
              ((((root ++ pending.install_target.relative_path) ++
                [rust_trim pending.custom_name])) ++ e.1, e.2))))
          ((root ++ pending.install_target.relative_path) ++
            [rust_trim pending.custom_name]),
        some pending,
        ⟨StatusKind.Error, "Install failed while copying files: " ++ env.errMsg⟩⟩ := by
    unfold install_pending
    simp [hbeq, hbase, hsrc, hdok, hcopy, FS.exists_, hget1]
  refine ⟨by rw [hres], ?_⟩
  intro q hq
  have hnd : ¬ ((root ++ pending.install_target.relative_path) ++
      [rust_trim pending.custom_name]) <+: q := by
    intro hdq
    rcases List.prefix_or_prefix_of_prefix hq hdq with hh | hh
    · exact hd1 hh
    · exact hd2 hh
  have hqd : ¬ q <+: ((root ++ pending.install_target.relative_path) ++
      [rust_trim pending.custom_name]) := by
    intro hc
    exact hd1 (hq.trans hc)
  have hqb : ¬ q <+: (root ++ pending.install_target.relative_path) := by
    intro hc
    exact hqd (hc.trans (List.prefix_append _ _))
  rw [hres]
  show (FS.removeAll _ _).get q = fs.get q
  rw [FS.get_removeAll, if_neg hnd]
  rw [FS.get_writeAll_of_not_mem]
  · rw [FS.get_mkdirAll_outside _ _ _ hqd, FS.get_mkdirAll_outside _ _ _ hqb]
  · intro e he heq
    rcases List.mem_map.mp he with ⟨x, _, hxe⟩
    have : ((root ++ pending.install_target.relative_path) ++
        [rust_trim pending.custom_name]) <+: e.1 := by
      rw [← hxe]
      exact List.prefix_append _ _
    exact hnd (heq ▸ this)

/-- Witness for the amended C9 at a concrete failing commit: the temp
directory entry is exactly as before the call. -/
theorem install_pending_zip_copy_failure_keeps_temp_witness :
    (install_pending ["r"]
        ⟨PendingSource.Zip ["b.zip"] ["tmpdir"], InstallTarget.Tracks, "n", "", ""⟩
        [(["tmpdir"], Node.dir)] ⟨true, true, false, [], true, true, "boom"⟩).pending
      = some ⟨PendingSource.Zip ["b.zip"] ["tmpdir"], InstallTarget.Tracks, "n", "", ""⟩ ∧
    (install_pending ["r"]
        ⟨PendingSource.Zip ["b.zip"] ["tmpdir"], InstallTarget.Tracks, "n", "", ""⟩
        [(["tmpdir"], Node.dir)] ⟨true, true, false, [], true, true, "boom"⟩).fs.get ["tmpdir"]
      = FS.get [(["tmpdir"], Node.dir)] ["tmpdir"] := by
  have h := install_pending_zip_copy_failure_keeps_temp ["r"]
    ⟨PendingSource.Zip ["b.zip"] ["tmpdir"], InstallTarget.Tracks, "n", "", ""⟩
    [(["tmpdir"], Node.dir)] ⟨true, true, false, [], true, true, "boom"⟩
    ["b.zip"] ["tmpdir"] rfl (by decide) rfl (by decide) rfl rfl
    (by decide) (by decide)
  exact ⟨h.1, h.2 ["tmpdir"] (by decide)⟩

/-- C4: when the recursive copy of an archive-sourced commit succeeds but
the metadata sidecar write fails, the commit does not fail and does not
roll back: the outcome is the installed-with-warning status, the pending
slot is consumed, every copied file is still in place under the
destination, and the temp extraction directory is released exactly as on
the plain success path. -/
theorem install_pending_zip_metadata_failure (root : Path) (pending : PendingInstall)
    (fs : FS) (env : CommitEnv) (a t : Path)
    (hsrc : pending.source = PendingSource.Zip a t)
    (hname : rust_trim pending.custom_name ≠ "")
    (hbase : env.createBaseOk = true)
    (hnew : fs.get ((root ++ pending.install_target.relative_path) ++
      [rust_trim pending.custom_name]) = none)
    (hdok : env.createDestOk = true)
    (hcopy : env.copyOk = true)
    (hmeta : env.metaOk = false)
    (hnodup : FS.NodupKeys fs)
    (hd1 : ¬ t <+: ((root ++ pending.install_target.relative_path) ++
      [rust_trim pending.custom_name]))
    (hd2 : ¬ ((root ++ pending.install_target.relative_path) ++
      [rust_trim pending.custom_name]) <+: t) :
    (install_pending root pending fs env).pending = none ∧
    (install_pending root pending fs env).status =
      ⟨StatusKind.Info,
        "Installed, but failed to write metadata file in " ++
          Path.display ((root ++ pending.install_target.relative_path) ++
            [rust_trim pending.custom_name]) ++ ": " ++ env.errMsg⟩ ∧
    (install_pending root pending fs env).fs =
      FS.removeAll
        (copy_dir_contents
          ((fs.mkdirAll (root ++ pending.install_target.relative_path)).mkdirAll
            ((root ++ pending.install_target.relative_path) ++
              [rust_trim pending.custom_name]))
          (pick_source_root
            ((fs.mkdirAll (root ++ pending.install_target.relative_path)).mkdirAll
              ((root ++ pending.install_target.relative_path) ++
                [rust_trim pending.custom_name])) t)
          ((root ++ pending.install_target.relative_path) ++
            [rust_trim pending.custom_name])) t ∧
    (∀ q, t <+: q → (install_pending root pending fs env).fs.get q = none) ∧
    (∀ rel n,
      (rel, n) ∈ FS.subtreeRel
        ((fs.mkdirAll (root ++ pending.install_target.relative_path)).mkdirAll
          ((root ++ pending.install_target.relative_path) ++
            [rust_trim pending.custom_name]))
        (pick_source_root
          ((fs.mkdirAll (root ++ pending.install_target.relative_path)).mkdirAll
            ((root ++ pending.install_target.relative_path) ++
              [rust_trim pending.custom_name])) t) →
      (install_pending root pending fs env).fs.get
        (((root ++ pending.install_target.relative_path) ++
          [rust_trim pending.custom_name]) ++ rel) = some n) := by
  have hbeq : (rust_trim pending.custom_name == "") = false := beq_eq_false_iff_ne.mpr hname
  have hnp : ¬ ((root ++ pending.install_target.relative_path) ++
      [rust_trim pending.custom_name]) <+: (root ++ pending.install_target.relative_path) := by
    intro hc
    have hle := hc.length_le
    simp only [List.length_append, List.length_cons, List.length_nil] at hle
    omega
  have hget1 : (fs.mkdirAll (root ++ pending.install_target.relative_path)).get
      (root ++ (pending.install_target.relative_path ++
        [rust_trim pending.custom_name])) = none := by
    rw [← List.append_assoc]
    rw [FS.get_mkdirAll_outside _ _ _ hnp]
    exact hnew
  have hres : install_pending root pending fs env =
      ⟨FS.removeAll
          (copy_dir_contents
            ((fs.mkdirAll (root ++ pending.install_target.relative_path)).mkdirAll
              ((root ++ pending.install_target.relative_path) ++
                [rust_trim pending.custom_name]))
            (pick_source_root
              ((fs.mkdirAll (root ++ pending.install_target.relative_path)).mkdirAll
                ((root ++ pending.install_target.relative_path) ++
                  [rust_trim pending.custom_name])) t)
            ((root ++ pending.install_target.relative_path) ++
              [rust_trim pending.custom_name])) t,
        none,
        ⟨StatusKind.Info,
          "Installed, but failed to write metadata file in " ++
            Path.display ((root ++ pending.install_target.relative_path) ++
              [rust_trim pending.custom_name]) ++ ": " ++ env.errMsg⟩⟩ := by
    unfold install_pending
    simp [hbeq, hbase, hsrc, hdok, hcopy, hmeta, FS.exists_, hget1, PendingSource.cleanup]
  have hnodup2 : FS.NodupKeys
      ((fs.mkdirAll (root ++ pending.install_target.relative_path)).mkdirAll
        ((root ++ pending.install_target.relative_path) ++
          [rust_trim pending.custom_name])) :=
    FS.nodupKeys_mkdirAll _ _ (FS.nodupKeys_mkdirAll _ _ hnodup)
  refine ⟨by rw [hres], by rw [hres], by rw [hres], ?_, ?_⟩
  · intro q hq
    rw [hres]
    show (FS.removeAll _ _).get q = none
    rw [FS.get_removeAll, if_pos hq]
  · intro rel n hm
    rw [hres]
    have hnd : ¬ t <+: (((root ++ pending.install_target.relative_path) ++
        [rust_trim pending.custom_name]) ++ rel) := by
      intro htq
      rcases List.prefix_or_prefix_of_prefix htq
        (List.prefix_append ((root ++ pending.install_target.relative_path) ++
          [rust_trim pending.custom_name]) rel) with hh | hh
      · exact hd1 hh
      · exact hd2 hh
    show (FS.removeAll _ _).get _ = some n
    rw [FS.get_removeAll, if_neg hnd]
    unfold copy_dir_contents
    exact FS.get_writeAll_mem _ _ _ _
      (nodup_keys_mapped_subtree _ _ _ hnodup2)
      (List.mem_map_of_mem (fun e => ((((root ++ pending.install_target.relative_path) ++
        [rust_trim pending.custom_name])) ++ e.1, e.2)) hm)

/-- Witness for C4 at a concrete commit whose metadata write fails: the
copied file survives at `r/tracks/MyMod/a.txt`, the temp directory is
released, and the pending slot is emptied. -/
theorem install_pending_zip_metadata_failure_witness :
    (install_pending ["r"]
        ⟨PendingSource.Zip ["p.zip"] ["tmp"], InstallTarget.Tracks, "MyMod", "", ""⟩
        [(["tmp"], Node.dir), (["tmp", "Pack"], Node.dir),
          (["tmp", "Pack", "a.txt"], Node.file "A")]
        ⟨true, true, true, [], false, true, "ro"⟩).pending = none ∧
    (install_pending ["r"]
        ⟨PendingSource.Zip ["p.zip"] ["tmp"], InstallTarget.Tracks, "MyMod", "", ""⟩
        [(["tmp"], Node.dir), (["tmp", "Pack"], Node.dir),
          (["tmp", "Pack", "a.txt"], Node.file "A")]
        ⟨true, true, true, [], false, true, "ro"⟩).status =
      ⟨StatusKind.Info,
        "Installed, but failed to write metadata file in r/tracks/MyMod: ro"⟩ ∧
    (install_pending ["r"]
        ⟨PendingSource.Zip ["p.zip"] ["tmp"], InstallTarget.Tracks, "MyMod", "", ""⟩
        [(["tmp"], Node.dir), (["tmp", "Pack"], Node.dir),
          (["tmp", "Pack", "a.txt"], Node.file "A")]
        ⟨true, true, true, [], false, true, "ro"⟩).fs.get ["tmp"] = none ∧
    (install_pending ["r"]
        ⟨PendingSource.Zip ["p.zip"] ["tmp"], InstallTarget.Tracks, "MyMod", "", ""⟩
        [(["tmp"], Node.dir), (["tmp", "Pack"], Node.dir),
          (["tmp", "Pack", "a.txt"], Node.file "A")]
        ⟨true, true, true, [], false, true, "ro"⟩).fs.get
      ["r", "tracks", "MyMod", "a.txt"] = some (Node.file "A") := by
  have h := install_pending_zip_metadata_failure ["r"]
    ⟨PendingSource.Zip ["p.zip"] ["tmp"], InstallTarget.Tracks, "MyMod", "", ""⟩
    [(["tmp"], Node.dir), (["tmp", "Pack"], Node.dir),
      (["tmp", "Pack", "a.txt"], Node.file "A")]
    ⟨true, true, true, [], false, true, "ro"⟩
    ["p.zip"] ["tmp"] rfl (by decide) rfl (by decide) rfl rfl rfl (by decide)
    (by decide) (by decide)
  refine ⟨h.1, ?_, h.2.2.2.1 ["tmp"] (by decide), ?_⟩
  · have h2 := h.2.1
    simpa using h2
  · have h5 := h.2.2.2.2 ["a.txt"] (Node.file "A") (by decide)
    simpa using h5

/-- C6: for a staged archive (so its file stem exists), the proposed
default name is the single top-level directory's name when the extracted
tree has exactly one top-level entry and it is a directory, and the
archive's file stem otherwise (single top-level file, or a number of
top-level entries different from one). -/
theorem guess_mod_name_spec (fs : FS) (extract_dir archive_path : Path)
    (h : is_supported_archive archive_path = true) :
    ∃ st, file_stem archive_path = some st ∧
      (∀ n, fs.childrenNames extract_dir = [n] →
        fs.isDir (extract_dir ++ [n]) = true →
        guess_mod_name fs extract_dir archive_path = n) ∧
      (∀ n, fs.childrenNames extract_dir = [n] →
        fs.isDir (extract_dir ++ [n]) = false →
        guess_mod_name fs extract_dir archive_path = st) ∧
      ((fs.childrenNames extract_dir).length ≠ 1 →
        guess_mod_name fs extract_dir archive_path = st) := by
  obtain ⟨st, hst⟩ := exists_stem_of_ext_isSome _ (ext_isSome_of_zip _ h)
  refine ⟨st, hst, ?_, ?_, ?_⟩
  · intro n hc hd
    unfold guess_mod_name
    rw [hc]
    simp [hd]
  · intro n hc hd
    unfold guess_mod_name
    rw [hc]
    simp [hd, hst]
  · intro hlen
    unfold guess_mod_name
    cases hc : fs.childrenNames extract_dir with
    | nil => simp [hst]
    | cons x xs =>
      cases xs with
      | nil =>
        rw [hc] at hlen
        simp at hlen
      | cons y ys => simp [hst]

/-- Witness for C6: an archive `Pack.zip` staged over a tree with a single
top-level directory `Foo` names the mod `Foo`; over a tree with two
top-level entries it names it `Pack` (the archive's stem). -/
theorem guess_mod_name_spec_witness :
    guess_mod_name [(["x"], Node.dir), (["x", "Foo"], Node.dir)] ["x"] ["Pack.zip"]
      = "Foo" ∧
    guess_mod_name [(["x"], Node.dir), (["x", "a"], Node.file ""), (["x", "b"], Node.dir)]
      ["x"] ["Pack.zip"] = "Pack" := by
  obtain ⟨st, hst, h1, _, _⟩ :=
    guess_mod_name_spec [(["x"], Node.dir), (["x", "Foo"], Node.dir)] ["x"] ["Pack.zip"]
      (by decide)
  obtain ⟨st2, hst2, _, _, g3⟩ :=
    guess_mod_name_spec
      [(["x"], Node.dir), (["x", "a"], Node.file ""), (["x", "b"], Node.dir)]
      ["x"] ["Pack.zip"] (by decide)
  have hs2 : st2 = "Pack" := by
    have he : some st2 = some "Pack" := by
      rw [← hst2]
      decide
    exact Option.some.inj he
  refine ⟨h1 "Foo" (by decide) (by decide), ?_⟩
  rw [g3 (by decide), hs2]

/-- C5: staging classifies a dropped path by extension, case-insensitively
and with the source's first-match-wins chain: `.pkz` yields a
single-file-package pending install with default category Tracks and the
file stem as default name; `.pnt` yields a single-file-paint pending
install with default category RiderPaints and the file stem as default
name; `.zip` is treated as an archive (extracted, archive-sourced pending
install); any other extension is rejected as unsupported with no pending
install created and no filesystem change. -/
theorem handle_dropped_file_classification (fs : FS) (env : StageEnv) (file_path : Path) :
    (is_pkz_file file_path = true → fs.exists_ file_path = true →
      handle_dropped_file fs env file_path =
        (fs, some ⟨PendingSource.Pkz file_path, InstallTarget.Tracks,
            (file_stem file_path).getD "track", "", ""⟩,
          ⟨StatusKind.Info,
            ".pkz file loaded: " ++ Path.display file_path ++
              ". Select mod type and install."⟩) ∧
      ∃ st, file_stem file_path = some st) ∧
    (is_pnt_file file_path = true → fs.exists_ file_path = true →
      handle_dropped_file fs env file_path =
        (fs, some ⟨PendingSource.Pnt file_path, InstallTarget.RiderPaints,
            (file_stem file_path).getD "rider", "", ""⟩,
          ⟨StatusKind.Info,
            ".pnt file loaded: " ++ Path.display file_path ++
              ". Default target is Rider Paints; change it if needed."⟩) ∧
      ∃ st, file_stem file_path = some st) ∧
    (is_supported_archive file_path = true → env.tempDirOk = true → env.extractOk = true →
      handle_dropped_file fs env file_path =
        (extract_zip_writes (fs.mkdirAll env.tempDir) env.tempDir env.zipEntries,
          some ⟨PendingSource.Zip file_path env.tempDir, InstallTarget.Tracks,
            guess_mod_name
              (extract_zip_writes (fs.mkdirAll env.tempDir) env.tempDir env.zipEntries)
              env.tempDir file_path, "", ""⟩,
          ⟨StatusKind.Info,
            "Archive extracted: " ++ Path.display file_path ++
              ". Fill out mod details and install."⟩)) ∧
    (is_pkz_file file_path = false → is_pnt_file file_path = false →
      is_supported_archive file_path = false →
      handle_dropped_file fs env file_path =
        (fs, none,
          ⟨StatusKind.Error, "Unsupported file type. Supported: .zip, .pkz, and .pnt."⟩)) := by
  refine ⟨?_, ?_, ?_, ?_⟩
  · intro hpkz hex
    refine ⟨?_, exists_stem_of_ext_isSome _ (ext_isSome_of_pkz _ hpkz)⟩
    unfold handle_dropped_file prepare_pending_pkz_install
    simp [hpkz, hex]
  · intro hpnt hex
    refine ⟨?_, exists_stem_of_ext_isSome _ (ext_isSome_of_pnt _ hpnt)⟩
    unfold handle_dropped_file prepare_pending_pnt_install
    simp [hpnt, hex, not_pkz_of_pnt _ hpnt]
  · intro hzip htmp hext
    unfold handle_dropped_file prepare_pending_install
    simp [hzip, htmp, hext, not_pkz_of_zip _ hzip, not_pnt_of_zip _ hzip]
  · intro h1 h2 h3
    unfold handle_dropped_file
    simp [h1, h2, h3]

/-- Witness for C5: an uppercase-extension package file `Cool.PKZ` stages
as a single-file package named `Cool` under Tracks, and a `.rar` drop is
rejected as unsupported. -/
theorem handle_dropped_file_classification_witness :
    handle_dropped_file [(["Cool.PKZ"], Node.file "z")] ⟨true, ["t"], true, [], "e"⟩
        ["Cool.PKZ"] =
      ([(["Cool.PKZ"], Node.file "z")],
        some ⟨PendingSource.Pkz ["Cool.PKZ"], InstallTarget.Tracks, "Cool", "", ""⟩,
        ⟨StatusKind.Info, ".pkz file loaded: Cool.PKZ. Select mod type and install."⟩) ∧
    handle_dropped_file [] ⟨true, ["t"], true, [], "e"⟩ ["x.rar"] =
      ([], none,
        ⟨StatusKind.Error, "Unsupported file type. Supported: .zip, .pkz, and .pnt."⟩) := by
  have h := handle_dropped_file_classification [(["Cool.PKZ"], Node.file "z")]
    ⟨true, ["t"], true, [], "e"⟩ ["Cool.PKZ"]
  have h2 := handle_dropped_file_classification [] ⟨true, ["t"], true, [], "e"⟩ ["x.rar"]
  refine ⟨?_, h2.2.2.2 (by decide) (by decide) (by decide)⟩
  have h3 := (h.1 (by decide) (by decide)).1
  simpa using h3

/-- C10: staging a single-file package or paint input whose path does not
exist fails with the file-does-not-exist error and creates no pending
install; for existing inputs of those kinds staging succeeds, and in both
cases the filesystem is untouched. -/
theorem handle_dropped_file_missing_input (fs : FS) (env : StageEnv) (file_path : Path) :
    (is_pkz_file file_path = true →
      (fs.exists_ file_path = false →
        handle_dropped_file fs env file_path =
          (fs, none,
            ⟨StatusKind.Error,
              "Failed to prepare .pkz file " ++ Path.display file_path ++
                ": File does not exist."⟩)) ∧
      (fs.exists_ file_path = true →
        (handle_dropped_file fs env file_path).1 = fs ∧
        ((handle_dropped_file fs env file_path).2.1).isSome = true)) ∧
    (is_pnt_file file_path = true →
      (fs.exists_ file_path = false →
        handle_dropped_file fs env file_path =
          (fs, none,
            ⟨StatusKind.Error,
              "Failed to prepare .pnt file " ++ Path.display file_path ++
                ": File does not exist."⟩)) ∧
      (fs.exists_ file_path = true →
        (handle_dropped_file fs env file_path).1 = fs ∧
        ((handle_dropped_file fs env file_path).2.1).isSome = true)) := by
  have hcat : (": " ++ "File does not exist." : String) = ": File does not exist." := rfl
  constructor
  · intro hpkz
    constructor
    · intro hex
      unfold handle_dropped_file prepare_pending_pkz_install
      simp [hpkz, hex, String.append_assoc, hcat]
    · intro hex
      unfold handle_dropped_file prepare_pending_pkz_install
      simp [hpkz, hex]
  · intro hpnt
    constructor
    · intro hex
      unfold handle_dropped_file prepare_pending_pnt_install
      simp [hpnt, hex, not_pkz_of_pnt _ hpnt, String.append_assoc, hcat]
    · intro hex
      unfold handle_dropped_file prepare_pending_pnt_install
      simp [hpnt, hex, not_pkz_of_pnt _ hpnt]

/-- Witness for C10: a missing `a.pkz` is rejected with no pending install,
an existing `b.pnt` stages with the filesystem untouched. -/
theorem handle_dropped_file_missing_input_witness :
    handle_dropped_file [] ⟨true, ["t"], true, [], "e"⟩ ["a.pkz"] =
      ([], none,
        ⟨StatusKind.Error, "Failed to prepare .pkz file a.pkz: File does not exist."⟩) ∧
    (handle_dropped_file [(["b.pnt"], Node.file "p")] ⟨true, ["t"], true, [], "e"⟩
        ["b.pnt"]).1 = [(["b.pnt"], Node.file "p")] ∧
    ((handle_dropped_file [(["b.pnt"], Node.file "p")] ⟨true, ["t"], true, [], "e"⟩
        ["b.pnt"]).2.1).isSome = true := by
  have h1 := handle_dropped_file_missing_input [] ⟨true, ["t"], true, [], "e"⟩ ["a.pkz"]
  have h2 := handle_dropped_file_missing_input [(["b.pnt"], Node.file "p")]
    ⟨true, ["t"], true, [], "e"⟩ ["b.pnt"]
  have ha := (h1.1 (by decide)).1 (by decide)
  have hb := (h2.2 (by decide)).2 (by decide)
  exact ⟨by simpa using ha, hb.1, hb.2⟩

/-- C7: scanning a category directory returns exactly the immediate
children that are directories whose names do not case-insensitively match
an excluded name, or files with one of the two recognized single-file
extensions; a non-readable directory yields the empty list; and the result
is sorted ascending by case-insensitive (ASCII-lowercased) name. -/
theorem read_mod_entries_spec (dir : Path) (excluded : List String) (items : List DirEnt) :
    read_mod_entries dir none excluded = [] ∧
    (∀ m, m ∈ read_mod_entries dir (some items) excluded ↔
      ∃ item ∈ items, m = ModEntry.mk item.name (dir ++ [item.name]) ∧
        ((item.is_dir = true ∧
            ∀ ex ∈ excluded, eq_ignore_ascii_case ex item.name = false) ∨
         (item.is_dir = false ∧
            (is_pkz_file (dir ++ [item.name]) = true ∨
             is_pnt_file (dir ++ [item.name]) = true)))) ∧
    (read_mod_entries dir (some items) excluded).Pairwise
      (fun a b => modEntryLe a b = true) := by
  refine ⟨rfl, ?_, ?_⟩
  · intro m
    unfold read_mod_entries
    rw [mem_sortLe, List.mem_filterMap]
    constructor
    · rintro ⟨item, hit, hf⟩
      refine ⟨item, hit, ?_⟩
      by_cases h1 : (item.is_dir &&
          excluded.any (fun ex => eq_ignore_ascii_case ex item.name)) = true
      · simp [h1] at hf
      · by_cases h2 : (!item.is_dir && !is_pkz_file (dir ++ [item.name]) &&
            !is_pnt_file (dir ++ [item.name])) = true
        · simp [h1, h2] at hf
        · have hm : m = ModEntry.mk item.name (dir ++ [item.name]) := by
            simp [h1, h2] at hf
            exact hf.symm
          refine ⟨hm, ?_⟩
          cases hd : item.is_dir
          · right
            refine ⟨rfl, ?_⟩
            cases hpk : is_pkz_file (dir ++ [item.name])
            · cases hpn : is_pnt_file (dir ++ [item.name])
              · exact absurd (by simp [hd, hpk, hpn]) h2
              · exact Or.inr rfl
            · exact Or.inl rfl
          · left
            refine ⟨rfl, ?_⟩
            intro ex hex
            cases hc : eq_ignore_ascii_case ex item.name
            · rfl
            · exact absurd (by simp [hd]; exact ⟨ex, hex, hc⟩) h1
    · rintro ⟨item, hit, hm, hcond⟩
      refine ⟨item, hit, ?_⟩
      rcases hcond with ⟨hd, hall⟩ | ⟨hd, hor⟩
      · have hany : excluded.any (fun ex => eq_ignore_ascii_case ex item.name) = false :=
          List.any_eq_false.mpr (fun x hx => by simp [hall x hx])
        simp [hd, hany, hm]
      · rcases hor with hpk | hpn
        · simp [hd, hpk, hm]
        · simp [hd, hpn, hm]
  · unfold read_mod_entries
    exact pairwise_sortLe modEntryLe modEntryLe_total modEntryLe_trans _

/-- Witness for C7: scanning a directory with children `b`, `A`, `Excluded`
(excluded) and `stray.txt` returns exactly `A`, `b` in case-insensitive
sorted order, and a non-readable directory scans to the empty list. -/
theorem read_mod_entries_spec_witness :
    read_mod_entries ["d"] none ["excluded"] = [] ∧
    (∃ item ∈ [DirEnt.mk "b" true, DirEnt.mk "A" true, DirEnt.mk "Excluded" true,
        DirEnt.mk "stray.txt" false],
      ModEntry.mk "A" ["d", "A"] = ModEntry.mk item.name (["d"] ++ [item.name]) ∧
        ((item.is_dir = true ∧
            ∀ ex ∈ ["excluded"], eq_ignore_ascii_case ex item.name = false) ∨
         (item.is_dir = false ∧
            (is_pkz_file (["d"] ++ [item.name]) = true ∨
             is_pnt_file (["d"] ++ [item.name]) = true)))) ∧
    (read_mod_entries ["d"]
        (some [DirEnt.mk "b" true, DirEnt.mk "A" true, DirEnt.mk "Excluded" true,
          DirEnt.mk "stray.txt" false]) ["excluded"]).Pairwise
      (fun a b => modEntryLe a b = true) := by
  have h := read_mod_entries_spec ["d"] ["excluded"]
    [DirEnt.mk "b" true, DirEnt.mk "A" true, DirEnt.mk "Excluded" true,
      DirEnt.mk "stray.txt" false]
  exact ⟨h.1, (h.2.1 (ModEntry.mk "A" ["d", "A"])).mp (by decide), h.2.2⟩

/-- C8 counterexample: `with_extension_if_missing` lowercases only the
name, not the extension, so for the uppercase extension `.PKZ` the claimed
universally-quantified properties fail: a name that already ends with the
extension case-insensitively is still appended to, and the operation is
not idempotent. -/
theorem with_extension_if_missing_cex :
    str_ends_with (to_lowercase "a.pkz") (to_lowercase ".PKZ") = true ∧
    with_extension_if_missing "a.pkz" ".PKZ" ≠ "a.pkz" ∧
    with_extension_if_missing (with_extension_if_missing "a" ".PKZ") ".PKZ"
      ≠ with_extension_if_missing "a" ".PKZ" := by
  decide

/-- C8 (amended): for extensions that are already ASCII-lowercase — as the
only extensions the program passes, `.pkz` and `.pnt`, are — appending is
a no-op when the name already carries the extension case-insensitively,
otherwise the extension is appended, and the operation is idempotent. -/
theorem with_extension_if_missing_spec (name ext : String)
    (hext : to_lowercase ext = ext) :
    (str_ends_with (to_lowercase name) (to_lowercase ext) = true →
      with_extension_if_missing name ext = name) ∧
    (str_ends_with (to_lowercase name) (to_lowercase ext) = false →
      with_extension_if_missing name ext = name ++ ext) ∧
    with_extension_if_missing (with_extension_if_missing name ext) ext
      = with_extension_if_missing name ext := by
  have hA : ∀ s : String, str_ends_with (to_lowercase (s ++ ext)) ext = true := by
    intro s
    unfold str_ends_with
    rw [to_lowercase_append, hext, data_append]
    exact List.isSuffixOf_iff_suffix.mpr (List.suffix_append _ _)
  refine ⟨?_, ?_, ?_⟩
  · intro h
    rw [hext] at h
    unfold with_extension_if_missing
    simp [h]
  · intro h
    rw [hext] at h
    unfold with_extension_if_missing
    simp [h]
  · by_cases h : str_ends_with (to_lowercase name) ext = true
    · have h1 : with_extension_if_missing name ext = name := by
        unfold with_extension_if_missing
        simp [h]
      rw [h1, h1]
    · have h' : str_ends_with (to_lowercase name) ext = false := by
        cases hh : str_ends_with (to_lowercase name) ext
        · rfl
        · exact absurd hh h
      have h1 : with_extension_if_missing name ext = name ++ ext := by
        unfold with_extension_if_missing
        simp [h']
      rw [h1]
      unfold with_extension_if_missing
      simp [hA name]

/-- Witness for the amended C8 at the program's package extension: `cool`
commits as `cool.pkz` whether or not the edited name already carries the
extension, and the append is idempotent. -/
theorem with_extension_if_missing_spec_witness :
    to_lowercase ".pkz" = ".pkz" ∧
    with_extension_if_missing "cool" ".pkz" = "cool" ++ ".pkz" ∧
    with_extension_if_missing "cool.pkz" ".pkz" = "cool.pkz" ∧
    with_extension_if_missing (with_extension_if_missing "cool" ".pkz") ".pkz"
      = with_extension_if_missing "cool" ".pkz" := by
  have h := with_extension_if_missing_spec "cool" ".pkz" (by decide)
  have h2 := with_extension_if_missing_spec "cool.pkz" ".pkz" (by decide)
  exact ⟨by decide, h.2.1 (by decide), h2.1 (by decide), h.2.2⟩

end Mxbmm
